import Mathlib

/-!
Verification of the backlang line-reversal transcoder (main.go) and the
language router (router.go).  Byte buffers are modelled as `List Char`
(every operation in the source compares bytes only against ASCII values,
so the identification of bytes with characters is faithful).
-/

/-- Convert a string literal to the byte-list representation. -/
def str (s : String) : List Char := s.data

/-- The sentinel record `"##BCKL.NNL##\n"` prepended by `encode` when the
source buffer lacks a trailing newline (main.go line 63). -/
def markerLine : List Char := str "##BCKL.NNL##\n"

/-- Accumulating worker for `splitLinesPreserveEndings`: `cur` holds the
bytes of the current (unterminated) line in reverse order, mirroring the
`start` index of the Go loop (main.go lines 126-147). -/
def splitAux (cur : List Char) : List Char → List (List Char)
  | [] => if cur = [] then [] else [cur.reverse ++ ['\n']]
  | c :: rest =>
      if c = '\n' then (cur.reverse ++ ['\n']) :: splitAux [] rest
      else splitAux (c :: cur) rest

/-- `splitLinesPreserveEndings` from main.go: cut after every `'\n'`
(so a CRLF pair stays inside its record), and give a final unterminated
line its own record with a synthetic `'\n'` appended. -/
def splitLinesPreserveEndings (b : List Char) : List (List Char) :=
  splitAux [] b

/-- The pure buffer transformation performed by `encode` (main.go lines
50-75), omitting the file I/O: record the trailing-newline fact, split,
reverse, and prepend the marker when the source was non-empty without a
trailing newline.  `b.getLast? = some '\n'` is Go's
`len(data) > 0 && data[len(data)-1] == '\n'`. -/
def encodeBuf (b : List Char) : List Char :=
  let hasTrailingNewline := b.getLast? = some '\n'
  let lines := (splitLinesPreserveEndings b).reverse
  let lines := if ¬hasTrailingNewline ∧ b ≠ [] then markerLine :: lines else lines
  lines.flatten

/-- Removing one trailing `'\n'` from a record (main.go lines 93-97): the
guard `l.getLast? = some '\n'` is Go's
`len(lastLine) > 0 && lastLine[len(lastLine)-1] == '\n'`. -/
def stripTrailingNl (l : List Char) : List Char :=
  if l.getLast? = some '\n' then l.dropLast else l

/-- Replace the last record of a sequence by its `stripTrailingNl`;
the empty sequence is left unchanged (this is Go's `len(lines) > 0`
guard at main.go line 92). -/
def stripLastRecordNl (ls : List (List Char)) : List (List Char) :=
  ls.getLast?.elim ls (fun last => ls.dropLast ++ [stripTrailingNl last])

/-- The pure buffer transformation performed by `decode` (main.go lines
77-120): split, strip the marker record when it is the first record,
reverse, and when a marker was stripped undo the synthetic trailing
newline of the (new) last record. -/
def decodeBuf (b : List Char) : List Char :=
  let lines0 := splitLinesPreserveEndings b
  let hasMarker := lines0.head? = some markerLine
  let lines1 := if hasMarker then lines0.tail else lines0
  let lines2 := lines1.reverse
  let lines3 := if hasMarker then stripLastRecordNl lines2 else lines2
  lines3.flatten

example : splitLinesPreserveEndings (str "a\r\nb\nc") =
    [str "a\r\n", str "b\n", str "c\n"] := by decide

example : splitLinesPreserveEndings [] = [] := by decide

example : encodeBuf (str "1\n2\n3\n") = str "3\n2\n1\n" := by decide

example : encodeBuf (str "a\nb\nc") = str "##BCKL.NNL##\nc\nb\na\n" := by decide

example : decodeBuf (str "##BCKL.NNL##\nc\nb\na\n") = str "a\nb\nc" := by decide

example : decodeBuf (encodeBuf (str "a\r\nb")) = str "a\r\nb" := by decide

-- the round-trip failure: a buffer that itself ends with the marker record
example : decodeBuf (encodeBuf markerLine) = [] := by decide

/-! ### Well-formedness of line records -/

/-- A well-formed record: some newline-free body followed by one `'\n'`.
`splitLinesPreserveEndings` only ever produces such records. -/
def IsRec (r : List Char) : Prop := ∃ s, r = s ++ ['\n'] ∧ '\n' ∉ s

/-- All records of a sequence are well-formed. -/
def IsRecSeq (L : List (List Char)) : Prop := ∀ r ∈ L, IsRec r

theorem isRec_markerLine : IsRec markerLine :=
  ⟨str "##BCKL.NNL##", by decide, by decide⟩

theorem isRecSeq_splitAux (b : List Char) :
    ∀ cur : List Char, '\n' ∉ cur → IsRecSeq (splitAux cur b) := by
  induction b with
  | nil =>
      intro cur hcur r hr
      unfold splitAux at hr
      split at hr
      · simp at hr
      · simp at hr
        exact ⟨cur.reverse, hr, by simpa using hcur⟩
  | cons c rest ih =>
      intro cur hcur r hr
      unfold splitAux at hr
      split at hr
      · rename_i hc
        rcases List.mem_cons.mp hr with h | h
        · exact ⟨cur.reverse, h, by simpa using hcur⟩
        · exact ih [] (by simp) r h
      · rename_i hc
        refine ih (c :: cur) ?_ r hr
        intro hmem
        rcases List.mem_cons.mp hmem with h | h
        · exact hc h.symm
        · exact hcur h

theorem isRecSeq_split (b : List Char) :
    IsRecSeq (splitLinesPreserveEndings b) :=
  isRecSeq_splitAux b [] (by simp)

theorem isRecSeq_reverse {L : List (List Char)} (h : IsRecSeq L) :
    IsRecSeq L.reverse := fun r hr => h r (List.mem_reverse.mp hr)

/-! ### Concatenating the records reproduces the buffer -/

theorem flatten_splitAux (b : List Char) :
    ∀ cur : List Char, (splitAux cur b).flatten =
      cur.reverse ++ b ++
        (if b.getLast? = some '\n' ∨ (b = [] ∧ cur = []) then [] else ['\n']) := by
  induction b with
  | nil =>
      intro cur
      by_cases h : cur = []
      · subst h; simp [splitAux]
      · simp [splitAux, h]
  | cons c rest ih =>
      intro cur
      by_cases hc : c = '\n'
      · subst hc
        rw [show splitAux cur ('\n' :: rest) =
              (cur.reverse ++ ['\n']) :: splitAux [] rest by simp [splitAux]]
        rw [List.flatten_cons, ih []]
        cases rest with
        | nil => simp
        | cons a l => simp [List.append_assoc]
      · rw [show splitAux cur (c :: rest) = splitAux (c :: cur) rest by
              simp [splitAux, hc]]
        rw [ih (c :: cur)]
        cases rest with
        | nil => simp [hc]
        | cons a l => simp [List.append_assoc]

theorem flatten_split_of_endNl {b : List Char} (h : b.getLast? = some '\n') :
    (splitLinesPreserveEndings b).flatten = b := by
  unfold splitLinesPreserveEndings
  rw [flatten_splitAux b []]
  simp [h]

theorem flatten_split_of_not_endNl {b : List Char} (hne : b ≠ [])
    (h : b.getLast? ≠ some '\n') :
    (splitLinesPreserveEndings b).flatten = b ++ ['\n'] := by
  unfold splitLinesPreserveEndings
  rw [flatten_splitAux b []]
  simp [h, hne]

theorem split_ne_nil {b : List Char} (h : b ≠ []) :
    splitLinesPreserveEndings b ≠ [] := by
  intro hs
  have hf : (splitLinesPreserveEndings b).flatten = [] := by rw [hs]; rfl
  unfold splitLinesPreserveEndings at hf
  rw [flatten_splitAux b []] at hf
  rcases List.append_eq_nil.mp hf with ⟨hf1, -⟩
  exact h (List.append_eq_nil.mp hf1).2

/-! ### Splitting is a left inverse of concatenation on record sequences -/

theorem splitAux_append_record (t : List Char) :
    ∀ s cur : List Char, '\n' ∉ s →
      splitAux cur (s ++ '\n' :: t) =
        ((cur.reverse ++ s) ++ ['\n']) :: splitAux [] t := by
  intro s
  induction s with
  | nil => intro cur _; simp [splitAux]
  | cons a s ih =>
      intro cur h
      have ha : ¬a = '\n' := fun e => h (by simp [e])
      have hs : '\n' ∉ s := fun hm => h (List.mem_cons_of_mem a hm)
      rw [show (a :: s) ++ '\n' :: t = a :: (s ++ '\n' :: t) by simp]
      rw [show splitAux cur (a :: (s ++ '\n' :: t)) =
            splitAux (a :: cur) (s ++ '\n' :: t) by simp [splitAux, ha]]
      rw [ih (a :: cur) hs]
      simp [List.append_assoc]

theorem split_flatten {L : List (List Char)} (h : IsRecSeq L) :
    splitLinesPreserveEndings L.flatten = L := by
  induction L with
  | nil => rfl
  | cons r L ih =>
      obtain ⟨s, rfl, hs⟩ := h _ (List.mem_cons_self _ L)
      have hL : IsRecSeq L := fun x hx => h x (List.mem_cons_of_mem _ hx)
      unfold splitLinesPreserveEndings
      rw [List.flatten_cons,
        show (s ++ ['\n']) ++ L.flatten = s ++ '\n' :: L.flatten by simp,
        splitAux_append_record L.flatten s [] hs]
      unfold splitLinesPreserveEndings at ih
      rw [ih hL]
      simp

/-! ### Shape lemmas for encode and decode -/

theorem getLast?_flatten_recSeq {L : List (List Char)} (h : IsRecSeq L)
    (hne : L ≠ []) : L.flatten.getLast? = some '\n' := by
  induction L with
  | nil => exact absurd rfl hne
  | cons r L ih =>
      cases L with
      | nil =>
          obtain ⟨s, rfl, -⟩ := h _ (List.mem_cons_self _ _)
          simp
      | cons r' L' =>
          rw [show (r :: r' :: L').flatten = r ++ (r' :: L').flatten from rfl,
            List.getLast?_append,
            ih (fun x hx => h x (List.mem_cons_of_mem _ hx)) (by simp)]
          rfl

theorem flatten_stripLastRecordNl {L : List (List Char)} (h : IsRecSeq L)
    (hne : L ≠ []) :
    (stripLastRecordNl L).flatten = L.flatten.dropLast := by
  rcases List.eq_nil_or_concat L with rfl | ⟨L', r, rfl⟩
  · exact absurd rfl hne
  · obtain ⟨s, hrs, -⟩ := h r (by simp [List.concat_eq_append])
    subst hrs
    unfold stripLastRecordNl
    rw [List.concat_eq_append, List.getLast?_concat]
    simp [stripTrailingNl, List.append_assoc]

theorem encodeBuf_of_endNl {b : List Char} (h : b.getLast? = some '\n') :
    encodeBuf b = (splitLinesPreserveEndings b).reverse.flatten := by
  unfold encodeBuf
  simp [h]

theorem encodeBuf_of_not_endNl {b : List Char} (hne : b ≠ [])
    (h : b.getLast? ≠ some '\n') :
    encodeBuf b = (markerLine :: (splitLinesPreserveEndings b).reverse).flatten := by
  unfold encodeBuf
  simp [h, hne]

theorem decodeBuf_flatten_of_head_ne {L : List (List Char)} (h : IsRecSeq L)
    (hm : L.head? ≠ some markerLine) :
    decodeBuf L.flatten = L.reverse.flatten := by
  unfold decodeBuf
  rw [split_flatten h]
  simp [hm]

theorem decodeBuf_flatten_marker {M : List (List Char)} (h : IsRecSeq M) :
    decodeBuf (markerLine :: M).flatten = (stripLastRecordNl M.reverse).flatten := by
  unfold decodeBuf
  rw [split_flatten (by
    intro r hr
    rcases List.mem_cons.mp hr with rfl | hr
    · exact isRec_markerLine
    · exact h r hr)]
  simp

theorem isRecSeq_marker_cons {L : List (List Char)} (h : IsRecSeq L) :
    IsRecSeq (markerLine :: L) := by
  intro r hr
  rcases List.mem_cons.mp hr with rfl | hr
  · exact isRec_markerLine
  · exact h r hr

theorem encodeBuf_getLast?_nl {b : List Char} (hb : b ≠ []) :
    (encodeBuf b).getLast? = some '\n' := by
  by_cases hnl : b.getLast? = some '\n'
  · rw [encodeBuf_of_endNl hnl]
    exact getLast?_flatten_recSeq (isRecSeq_reverse (isRecSeq_split b))
      (by simpa using split_ne_nil hb)
  · rw [encodeBuf_of_not_endNl hb hnl]
    exact getLast?_flatten_recSeq
      (isRecSeq_marker_cons (isRecSeq_reverse (isRecSeq_split b))) (by simp)

/-- C1 (amended): `Decode(Encode(B)) == B` for every buffer `B` whose final
line record is not itself the marker record `"##BCKL.NNL##\n"`; buffers
that end with that record are misread by `decode` (the marker is stripped
as if it were structural), as the counterexample shows. -/
theorem decode_encode_roundtrip (b : List Char)
    (h : b.getLast? = some '\n' →
      (splitLinesPreserveEndings b).getLast? ≠ some markerLine) :
    decodeBuf (encodeBuf b) = b := by
  by_cases hnil : b = []
  · subst hnil; decide
  · by_cases hnl : b.getLast? = some '\n'
    · have hm : (splitLinesPreserveEndings b).reverse.head? ≠ some markerLine := by
        rw [List.head?_reverse]; exact h hnl
      rw [encodeBuf_of_endNl hnl,
        decodeBuf_flatten_of_head_ne (isRecSeq_reverse (isRecSeq_split b)) hm,
        List.reverse_reverse, flatten_split_of_endNl hnl]
    · rw [encodeBuf_of_not_endNl hnil hnl,
        decodeBuf_flatten_marker (isRecSeq_reverse (isRecSeq_split b)),
        List.reverse_reverse,
        flatten_stripLastRecordNl (isRecSeq_split b) (split_ne_nil hnil),
        flatten_split_of_not_endNl hnil hnl, List.dropLast_concat]

/-- Witness for C1: a mixed CRLF/LF buffer without trailing terminator
round-trips byte for byte. -/
theorem decode_encode_roundtrip_witness :
    decodeBuf (encodeBuf (str "a\r\nb\nc")) = str "a\r\nb\nc" :=
  decode_encode_roundtrip (str "a\r\nb\nc") (by decide)

/-- Counterexample to C1 as stated: for the buffer consisting exactly of
the marker record, decoding the encoding does not give the buffer back
(it gives the empty buffer). -/
theorem decode_encode_roundtrip_cex :
    decodeBuf (encodeBuf markerLine) ≠ markerLine := by decide

/-! ### The encoded buffer begins with the marker record iff its first
record is the marker -/

theorem flatten_take13_marker {L : List (List Char)} (h : IsRecSeq L) :
    L.flatten.take 13 = markerLine ↔ L.head? = some markerLine := by
  cases L with
  | nil => simp; decide
  | cons r L' =>
      obtain ⟨s, rfl, hs⟩ := h _ (List.mem_cons_self _ _)
      constructor
      · intro ht
        rw [List.flatten_cons] at ht
        rcases Nat.lt_trichotomy (s.length + 1) 13 with hlt | heq | hgt
        · rw [List.take_append_eq_append_take,
            List.take_of_length_le (l := s ++ ['\n']) (by simp; omega)] at ht
          have h1 : markerLine.take (s.length + 1) = s ++ ['\n'] := by
            rw [← ht]
            exact List.take_left' (by simp)
          have h2 : ('\n' : Char) ∈ markerLine.take (s.length + 1) := by
            rw [h1]; simp
          have h3 : markerLine.take (s.length + 1) ⊆ markerLine.take 12 := by
            rw [show markerLine.take (s.length + 1) =
                  (markerLine.take 12).take (s.length + 1) by
                rw [List.take_take]
                congr 1
                omega]
            exact List.take_subset _ _
          exact absurd (h3 h2) (by decide)
        · rw [List.take_append_eq_append_take,
            List.take_of_length_le (l := s ++ ['\n']) (by simp; omega),
            show 13 - (s ++ ['\n']).length = 0 by simp; omega,
            List.take_zero, List.append_nil] at ht
          simp only [List.head?_cons]
          exact congrArg some ht
        · have h13 : 13 ≤ s.length := by omega
          rw [show (s ++ ['\n']) ++ L'.flatten = s ++ (['\n'] ++ L'.flatten) by simp,
            List.take_append_of_le_length h13] at ht
          have hmem : ('\n' : Char) ∈ s := by
            have hin : ('\n' : Char) ∈ s.take 13 := by rw [ht]; decide
            exact List.take_subset _ _ hin
          exact absurd hmem hs
      · intro hh
        simp only [List.head?_cons, Option.some.injEq] at hh
        rw [List.flatten_cons, hh]
        exact List.take_left' (by decide)

/-- C2 (amended): the encoded output begins with the 13 marker bytes
`"##BCKL.NNL##\n"` iff the source was non-empty without a trailing
terminator, or the source's own last line record is the marker record
(in which case that last record lands at the front of the reversed
output and is indistinguishable from a structural marker). -/
theorem marker_present_iff (b : List Char) :
    (encodeBuf b).take 13 = markerLine ↔
      (b ≠ [] ∧ b.getLast? ≠ some '\n') ∨
        (splitLinesPreserveEndings b).getLast? = some markerLine := by
  by_cases hnil : b = []
  · subst hnil; simp; decide
  · by_cases hnl : b.getLast? = some '\n'
    · rw [encodeBuf_of_endNl hnl,
        flatten_take13_marker (isRecSeq_reverse (isRecSeq_split b)),
        List.head?_reverse]
      simp [hnl]
    · rw [encodeBuf_of_not_endNl hnil hnl,
        flatten_take13_marker
          (isRecSeq_marker_cons (isRecSeq_reverse (isRecSeq_split b)))]
      simp [hnil, hnl]

/-- Counterexample to C2 as stated: the buffer consisting of the marker
record ends with a line terminator, yet its encoding begins with the
marker bytes — the "only if" direction of the claimed equivalence fails. -/
theorem marker_present_iff_cex :
    (encodeBuf markerLine).take 13 = markerLine ∧
      ¬(markerLine ≠ [] ∧ markerLine.getLast? ≠ some '\n') := by decide

/-- C3 (amended): `Decode(Decode(Encode(Encode(B)))) == B` for every
buffer `B` whose first line record is not the marker record and whose
last line record is not the marker record when `B` ends with a
terminator; when a marker record occurs at either boundary the spurious
structural interpretation in one of the two decodes loses bytes, as the
counterexample shows. -/
theorem double_transform_roundtrip (b : List Char)
    (h1 : (splitLinesPreserveEndings b).head? ≠ some markerLine)
    (h2 : b.getLast? = some '\n' →
      (splitLinesPreserveEndings b).getLast? ≠ some markerLine) :
    decodeBuf (decodeBuf (encodeBuf (encodeBuf b))) = b := by
  by_cases hnil : b = []
  · subst hnil; decide
  · by_cases hnl : b.getLast? = some '\n'
    · have e1 : encodeBuf b = (splitLinesPreserveEndings b).reverse.flatten :=
        encodeBuf_of_endNl hnl
      have e2 : encodeBuf (encodeBuf b) = b := by
        rw [encodeBuf_of_endNl (encodeBuf_getLast?_nl hnil), e1,
          split_flatten (isRecSeq_reverse (isRecSeq_split b)),
          List.reverse_reverse, flatten_split_of_endNl hnl]
      have d1 : decodeBuf b = (splitLinesPreserveEndings b).reverse.flatten := by
        conv_lhs => rw [show b = (splitLinesPreserveEndings b).flatten from
          (flatten_split_of_endNl hnl).symm]
        exact decodeBuf_flatten_of_head_ne (isRecSeq_split b) h1
      rw [e2, d1,
        decodeBuf_flatten_of_head_ne (isRecSeq_reverse (isRecSeq_split b))
          (by rw [List.head?_reverse]; exact h2 hnl),
        List.reverse_reverse, flatten_split_of_endNl hnl]
    · have e1 : encodeBuf b =
          (markerLine :: (splitLinesPreserveEndings b).reverse).flatten :=
        encodeBuf_of_not_endNl hnil hnl
      have e2 : encodeBuf (encodeBuf b) =
          (splitLinesPreserveEndings b ++ [markerLine]).flatten := by
        rw [encodeBuf_of_endNl (encodeBuf_getLast?_nl hnil), e1,
          split_flatten (isRecSeq_marker_cons (isRecSeq_reverse (isRecSeq_split b))),
          List.reverse_cons, List.reverse_reverse]
      have happ : IsRecSeq (splitLinesPreserveEndings b ++ [markerLine]) := by
        intro r hr
        rcases List.mem_append.mp hr with hr | hr
        · exact isRecSeq_split b r hr
        · rw [List.mem_singleton.mp hr]; exact isRec_markerLine
      have hheadapp :
          (splitLinesPreserveEndings b ++ [markerLine]).head? ≠ some markerLine := by
        rw [List.head?_append_of_ne_nil _ (split_ne_nil hnil)]
        exact h1
      have d1 : decodeBuf ((splitLinesPreserveEndings b ++ [markerLine]).flatten) =
          (markerLine :: (splitLinesPreserveEndings b).reverse).flatten := by
        rw [decodeBuf_flatten_of_head_ne happ hheadapp, List.reverse_append]
        simp
      rw [e2, d1,
        decodeBuf_flatten_marker (isRecSeq_reverse (isRecSeq_split b)),
        List.reverse_reverse,
        flatten_stripLastRecordNl (isRecSeq_split b) (split_ne_nil hnil),
        flatten_split_of_not_endNl hnil hnl, List.dropLast_concat]

/-- Witness for C3: a buffer with no trailing terminator (marker-free)
survives the double encode / double decode. -/
theorem double_transform_roundtrip_witness :
    decodeBuf (decodeBuf (encodeBuf (encodeBuf (str "a\nb")))) = str "a\nb" :=
  double_transform_roundtrip (str "a\nb") (by decide) (by decide)

/-- Counterexample to C3 as stated: an encoded artifact whose first line
is the marker record (exactly the "double encode" workflow of the spec's
open question) is not restored by the double round trip. -/
theorem double_transform_roundtrip_cex :
    decodeBuf (decodeBuf (encodeBuf (encodeBuf (str "##BCKL.NNL##\nx\n")))) ≠
      str "##BCKL.NNL##\nx\n" := by decide

/-- C4: the LineSplitter contract — the empty buffer maps to the empty
sequence, and concatenating the records reproduces the input exactly when
the input is empty or ends in `'\n'`, and the input followed by one extra
`'\n'` byte otherwise (the synthetic terminator of the final partial
line). -/
theorem splitter_contract :
    splitLinesPreserveEndings ([] : List Char) = [] ∧
      ∀ b : List Char, (splitLinesPreserveEndings b).flatten =
        if b = [] ∨ b.getLast? = some '\n' then b else b ++ ['\n'] := by
  refine ⟨rfl, fun b => ?_⟩
  by_cases h : b = [] ∨ b.getLast? = some '\n'
  · rw [if_pos h]
    rcases h with rfl | h
    · rfl
    · exact flatten_split_of_endNl h
  · rw [if_neg h]
    push_neg at h
    exact flatten_split_of_not_endNl h.1 h.2

/-- C6: for every non-empty buffer ending in a line terminator the encoded
output is exactly the concatenation of its line records in reverse order,
with no marker prepended; in particular `"1\n2\n3\n"` encodes to
`"3\n2\n1\n"`. -/
theorem reversal_correctness :
    (∀ b : List Char, b ≠ [] → b.getLast? = some '\n' →
        encodeBuf b = (splitLinesPreserveEndings b).reverse.flatten) ∧
      encodeBuf (str "1\n2\n3\n") = str "3\n2\n1\n" :=
  ⟨fun _ _ h => encodeBuf_of_endNl h, by decide⟩

/-- Witness for C6 at the spec's example input. -/
theorem reversal_correctness_witness :
    encodeBuf (str "1\n2\n3\n") =
      (splitLinesPreserveEndings (str "1\n2\n3\n")).reverse.flatten :=
  reversal_correctness.1 (str "1\n2\n3\n") (by decide) (by decide)

/-- C10: every record produced by `splitLinesPreserveEndings` ends in the
byte `'\n'`; hence the encoded output of every non-empty buffer ends in
`'\n'`, and re-encoding any already-encoded artifact never takes the
marker-prepending branch (the second encode is a plain
split-reverse-concatenate). -/
theorem records_end_in_newline :
    (∀ b r : List Char, r ∈ splitLinesPreserveEndings b →
        r.getLast? = some '\n') ∧
      (∀ b : List Char, b ≠ [] → (encodeBuf b).getLast? = some '\n') ∧
      ∀ b : List Char, encodeBuf (encodeBuf b) =
        (splitLinesPreserveEndings (encodeBuf b)).reverse.flatten := by
  refine ⟨fun b r hr => ?_, fun b hb => encodeBuf_getLast?_nl hb, fun b => ?_⟩
  · obtain ⟨s, rfl, -⟩ := isRecSeq_split b r hr
    simp
  · by_cases hb : b = []
    · subst hb; decide
    · exact encodeBuf_of_endNl (encodeBuf_getLast?_nl hb)

/-- Witness for C10: the no-trailing-newline buffer `"x"` encodes to a
buffer that ends in a newline. -/
theorem records_end_in_newline_witness :
    (encodeBuf (str "x")).getLast? = some '\n' :=
  records_end_in_newline.2.1 (str "x") (by decide)

/-! ### Path utilities (Go path/filepath, Unix separators) -/

/-- Element-stack core of Go `filepath.Clean`: empty and `"."` elements
are dropped, `".."` pops the previous element when one is available,
is dropped at the root of a rooted path, and is kept otherwise.  The
stack holds the kept elements most-recent first. -/
def cleanStack (rooted : Bool) : List (List Char) → List (List Char) → List (List Char)
  | stack, [] => stack
  | stack, comp :: rest =>
      if comp = [] ∨ comp = ['.'] then cleanStack rooted stack rest
      else if comp = ['.', '.'] then
        match stack with
        | x :: xs =>
            if x = ['.', '.'] then
              if rooted then cleanStack rooted stack rest
              else cleanStack rooted (comp :: stack) rest
            else cleanStack rooted xs rest
        | [] =>
            if rooted then cleanStack rooted [] rest
            else cleanStack rooted [comp] rest
      else cleanStack rooted (comp :: stack) rest

/-- Go `filepath.Clean` (Unix): shortest lexically equivalent path;
`Clean("")` is `"."`. -/
def clean (p : List Char) : List Char :=
  if p = [] then ['.']
  else
    let rooted : Bool := p.head? == some '/'
    let body := List.intercalate ['/'] (cleanStack rooted [] (p.splitOn '/')).reverse
    let out := (if rooted then ['/'] else []) ++ body
    if out = [] then ['.'] else out

/-- The prefix of `p` up to and including its last `'/'` (empty when `p`
has no separator), i.e. Go's `path[:i+1]` for `i` the last separator. -/
def upToLastSlash (p : List Char) : List Char :=
  (p.reverse.dropWhile (fun c => c != '/')).reverse

/-- Go `filepath.Dir`: everything up to the final separator, Cleaned. -/
def filepathDir (p : List Char) : List Char :=
  clean (upToLastSlash p)

/-- Go `filepath.Base`: last element after stripping trailing separators;
`"."` for the empty path, `"/"` for an all-separator path. -/
def filepathBase (p : List Char) : List Char :=
  if p = [] then ['.']
  else
    let p1 := (p.reverse.dropWhile (fun c => c == '/')).reverse
    let p2 := (p1.reverse.takeWhile (fun c => c != '/')).reverse
    if p2 = [] then ['/'] else p2

/-- Worker for `filepathExt`: scan the reversed path; stop at a
separator, return from the final dot onward. -/
def extFrom : List Char → List Char → List Char
  | [], _ => []
  | c :: rest, acc =>
      if c = '/' then []
      else if c = '.' then c :: acc
      else extFrom rest (c :: acc)

/-- Go `filepath.Ext`: the suffix beginning at the final dot in the final
slash-separated element; empty if there is no dot. -/
def filepathExt (p : List Char) : List Char :=
  extFrom p.reverse []

/-- Go `filepath.Join` on two elements: leading empty elements are
skipped, the rest joined with `'/'` and Cleaned. -/
def filepathJoin (a b : List Char) : List Char :=
  if a = [] then (if b = [] then [] else clean b) else clean (a ++ '/' :: b)

/-- Byte-wise ASCII lowercasing; on the ASCII inputs compared here this
agrees with Go `strings.ToLower`. -/
def toLowerList (s : List Char) : List Char := s.map Char.toLower

def bckSuffix : List Char := str ".bck"

/-- Go `strings.TrimSuffix`. -/
def trimSuffix (s suf : List Char) : List Char :=
  if suf.isSuffixOf s then s.take (s.length - suf.length) else s

/-- `stripLastBck` from main.go lines 170-183.  The source tests
`strings.LastIndex(lower, ".bck") == len(base)-4`, which holds exactly
when `".bck"` is a suffix of the lowercased base (an occurrence ending
the string is necessarily the last one). -/
def stripLastBck (p : List Char) : List Char :=
  let dir := filepathDir p
  let base := filepathBase p
  let base := if bckSuffix.isSuffixOf (toLowerList base) then
      base.take (base.length - 4)
    else base
  if dir = ['.'] then base else filepathJoin dir base

example : stripLastBck (str "hello.py.bck") = str "hello.py" := by decide
example : stripLastBck (str "dir/f.txt.BCK") = str "dir/f.txt" := by decide
example : stripLastBck (str "x.bck.bck") = str "x.bck" := by decide
example : stripLastBck (str "a.bckb") = str "a.bckb" := by decide
example : stripLastBck (str "./x.txt") = str "x.txt" := by decide

/-- The candidate produced by iteration `i` of `nextAvailableName`
(main.go lines 185-197): `Join(dir, name_i.ext)` with `dir`, `base`,
`ext`, `name` as computed by the source. -/
def candidateName (p : List Char) (i : Nat) : List Char :=
  let dir := filepathDir p
  let base := filepathBase p
  let ext := filepathExt base
  let name := trimSuffix base ext
  filepathJoin dir (name ++ '_' :: Nat.toDigits 10 i ++ ext)

example : candidateName (str "out.txt") 2 = str "out_2.txt" := by decide
example : candidateName (str "d/out.txt") 11 = str "d/out_11.txt" := by decide

/-- `nextAvailableName` from main.go, over an abstract file-existence
predicate `ex` (the source's `fileExists`): the first `i ≥ 1` whose
candidate does not exist; totality requires the hypothesis that some
candidate is free. -/
def nextAvailableName (ex : List Char → Bool) (p : List Char)
    (h : ∃ i, ex (candidateName p (i + 1)) = false) : List Char :=
  candidateName p (Nat.find h + 1)

/-! ### Collision-safe naming (C7) -/

/-- Existence predicate of the spec's collision example: `out.txt` and
`out_1.txt` exist, nothing else does. -/
def exOut : List Char → Bool :=
  fun s => s == str "out.txt" || s == str "out_1.txt"

/-- C7: over an abstract file-existence predicate, `nextAvailableName`
returns the candidate `base_N.ext` for the smallest `N ≥ 1` whose
candidate does not exist; in particular with `out.txt` and `out_1.txt`
both existing the result for `out.txt` is `out_2.txt`. -/
theorem collision_safe_naming :
    (∀ (ex : List Char → Bool) (p : List Char)
        (h : ∃ i, ex (candidateName p (i + 1)) = false),
      ∃ N, 1 ≤ N ∧ nextAvailableName ex p h = candidateName p N ∧
        ex (candidateName p N) = false ∧
        ∀ m, 1 ≤ m → m < N → ex (candidateName p m) = true) ∧
    ∀ h0 : ∃ i, exOut (candidateName (str "out.txt") (i + 1)) = false,
      nextAvailableName exOut (str "out.txt") h0 = str "out_2.txt" := by
  have hgen : ∀ (ex : List Char → Bool) (p : List Char)
      (h : ∃ i, ex (candidateName p (i + 1)) = false),
      ∃ N, 1 ≤ N ∧ nextAvailableName ex p h = candidateName p N ∧
        ex (candidateName p N) = false ∧
        ∀ m, 1 ≤ m → m < N → ex (candidateName p m) = true := by
    intro ex p h
    refine ⟨Nat.find h + 1, by omega, rfl, Nat.find_spec h, fun m h1 h2 => ?_⟩
    have hmin := Nat.find_min h (show m - 1 < Nat.find h by omega)
    rw [show m - 1 + 1 = m by omega] at hmin
    simpa using hmin
  refine ⟨hgen, fun h0 => ?_⟩
  obtain ⟨N, hN1, hNeq, hNfalse, hNmin⟩ := hgen exOut (str "out.txt") h0
  have hN : N = 2 := by
    rcases Nat.lt_trichotomy N 2 with hlt | heq | hgt
    · have h1 : N = 1 := by omega
      rw [h1] at hNfalse
      exact absurd hNfalse (by decide)
    · exact heq
    · have h2 := hNmin 2 (by omega) hgt
      exact absurd h2 (by decide)
  rw [hNeq, hN]
  decide

/-- Witness for C7: the spec's concrete collision example. -/
theorem collision_safe_naming_witness :
    nextAvailableName exOut (str "out.txt") ⟨1, by decide⟩ = str "out_2.txt" :=
  collision_safe_naming.2 ⟨1, by decide⟩

/-! ### Naming convention (C8) -/

/-- The output path computed by `encode` (main.go line 68):
`outPath := inPath + ".bck"`. -/
def encodeOutPath (p : List Char) : List Char := p ++ bckSuffix

theorem filepathDir_of_no_slash {p : List Char} (h : '/' ∉ p) :
    filepathDir p = ['.'] := by
  have h1 : p.reverse.dropWhile (fun c => c != '/') = [] := by
    rw [List.dropWhile_eq_nil_iff]
    intro a ha
    have hne : a ≠ '/' := fun e => h (e ▸ List.mem_reverse.mp ha)
    simp [hne]
  unfold filepathDir upToLastSlash
  rw [h1]
  rfl

theorem filepathBase_of_no_slash {p : List Char} (hne : p ≠ []) (h : '/' ∉ p) :
    filepathBase p = p := by
  have h1 : p.reverse.dropWhile (fun c => c == '/') = p.reverse := by
    cases hrev : p.reverse with
    | nil => rfl
    | cons a t =>
        have ha : a ≠ '/' := fun e =>
          h (e ▸ List.mem_reverse.mp (hrev ▸ List.mem_cons_self a t))
        rw [List.dropWhile_cons_of_neg (by simp [ha])]
  have h2 : p.reverse.takeWhile (fun c => c != '/') = p.reverse := by
    rw [List.takeWhile_eq_self_iff]
    intro a ha
    have hne2 : a ≠ '/' := fun e => h (e ▸ List.mem_reverse.mp ha)
    simp [hne2]
  unfold filepathBase
  rw [if_neg hne]
  simp only [h1, List.reverse_reverse, h2]
  rw [if_neg (by simpa using hne)]

/-- C8 (amended): encode writes to exactly the input path with `".bck"`
appended; `stripLastBck` removes exactly one trailing `".bck"`,
case-insensitively, only when it ends the final path segment — and a
separator-free path that does not end in the suffix is returned
unchanged (paths containing separators are additionally normalized by
`filepath.Clean`, as the counterexample shows, so "unchanged" does not
hold for them verbatim). -/
theorem naming_convention :
    (∀ p : List Char, encodeOutPath p = p ++ str ".bck") ∧
    (∀ p : List Char, p ≠ [] → '/' ∉ p →
        bckSuffix.isSuffixOf (toLowerList p) = true →
        stripLastBck p = p.take (p.length - 4)) ∧
    (∀ p : List Char, p ≠ [] → '/' ∉ p →
        bckSuffix.isSuffixOf (toLowerList p) = false →
        stripLastBck p = p) ∧
    stripLastBck (str "dir/f.txt.BCK") = str "dir/f.txt" ∧
    stripLastBck (str "x.bck.bck") = str "x.bck" := by
  refine ⟨fun p => rfl, fun p hne h hsuf => ?_, fun p hne h hsuf => ?_,
    by decide, by decide⟩
  · simp only [stripLastBck, filepathDir_of_no_slash h,
      filepathBase_of_no_slash hne h, hsuf, if_pos rfl, if_true]
  · simp only [stripLastBck, filepathDir_of_no_slash h,
      filepathBase_of_no_slash hne h, hsuf, if_pos rfl, Bool.false_eq_true,
      if_false]
    simp

/-- Witness for C8: a lowercase single-segment `.bck` path is stripped by
exactly four bytes. -/
theorem naming_convention_witness :
    stripLastBck (str "hello.py.bck") =
      (str "hello.py.bck").take ((str "hello.py.bck").length - 4) :=
  naming_convention.2.1 (str "hello.py.bck") (by decide) (by decide) (by decide)

/-- Counterexample to C8 as stated: `"./x.txt"` has no `.bck` suffix in
its final segment, yet `stripLastBck` does not return it unchanged — the
Dir/Join round trip cleans the path to `"x.txt"`. -/
theorem naming_convention_cex :
    stripLastBck (str "./x.txt") ≠ str "./x.txt" := by decide

/-! ### Invalid-format rejection (C9) -/

/-- First step of the decode and run command paths: either the path is
rejected by the `.bck` suffix check before any file is read or written,
carrying the process exit status, or it passes and the input file is
read. -/
inductive CmdStep where
  | reject (exitCode : Nat)
  | proceed (readPath : List Char)
deriving DecidableEq

/-- Go's `strings.HasSuffix(strings.ToLower(inPath), ".bck")`. -/
def hasBckSuffix (p : List Char) : Bool :=
  bckSuffix.isSuffixOf (toLowerList p)

/-- The decode branch of `main` (main.go lines 30-38): the suffix check
runs before `decode` is called (so before any read or write); failure
prints to stderr and exits with status 2. -/
def decodeDispatch (p : List Char) : CmdStep :=
  if hasBckSuffix p then .proceed p else .reject 2

/-- `run` (router.go lines 44-47): the suffix check is the first
statement of `run`; the returned error makes `main` exit with status 1. -/
def runDispatch (p : List Char) : CmdStep :=
  if hasBckSuffix p then .proceed p else .reject 1

/-- C9: every path lacking the case-insensitive `.bck` suffix is rejected
by both decode and run before any file I/O, with a non-zero exit status;
every path carrying the suffix passes the check and proceeds to read the
input; appending `".bck"` to any path always yields a passing path. -/
theorem invalid_format_rejection :
    (∀ p : List Char, hasBckSuffix p = false →
        decodeDispatch p = .reject 2 ∧ runDispatch p = .reject 1) ∧
    (∀ p : List Char, hasBckSuffix p = true →
        decodeDispatch p = .proceed p ∧ runDispatch p = .proceed p) ∧
    (∀ (p : List Char) (c : Nat), decodeDispatch p = .reject c → c ≠ 0) ∧
    (∀ (p : List Char) (c : Nat), runDispatch p = .reject c → c ≠ 0) ∧
    ∀ p : List Char, hasBckSuffix (p ++ str ".bck") = true := by
  refine ⟨fun p h => ?_, fun p h => ?_, fun p c h => ?_, fun p c h => ?_,
    fun p => ?_⟩
  · simp [decodeDispatch, runDispatch, h]
  · simp [decodeDispatch, runDispatch, h]
  · unfold decodeDispatch at h
    split at h
    · exact absurd h (by simp)
    · intro hc
      rw [hc] at h
      exact absurd h (by simp)
  · unfold runDispatch at h
    split at h
    · exact absurd h (by simp)
    · intro hc
      rw [hc] at h
      exact absurd h (by simp)
  · have hmap : toLowerList (p ++ str ".bck") = toLowerList p ++ str ".bck" := by
      unfold toLowerList
      rw [List.map_append]
      congr 1
    unfold hasBckSuffix
    rw [hmap]
    rw [List.isSuffixOf_iff_suffix]
    exact List.suffix_append _ _

/-- Witness for C9: `x.txt` is rejected by both commands before any I/O. -/
theorem invalid_format_rejection_witness :
    decodeDispatch (str "x.txt") = .reject 2 ∧
      runDispatch (str "x.txt") = .reject 1 :=
  invalid_format_rejection.1 (str "x.txt") (by decide)

/-! ### Language registry and detector (router.go) -/

/-- The `Language` struct of router.go (named `LanguageDescriptor` here because Mathlib already declares `Language`). -/
structure LanguageDescriptor where
  name : List Char
  extensions : List (List Char)
  shebangs : List (List Char)
  command : List Char
  args : List (List Char)
deriving DecidableEq

/-- The Python descriptor, the only entry of `getSupportedLanguages`. -/
def pythonLang : LanguageDescriptor :=
  ⟨str "Python", [str ".py"],
    [str "#!/usr/bin/env python3", str "#!/usr/bin/python3",
      str "#!/usr/bin/env python", str "#!/usr/bin/python"],
    str "python3", []⟩

/-- `getSupportedLanguages` from router.go lines 22-40. -/
def getSupportedLanguages : List LanguageDescriptor := [pythonLang]

/-- The first line as produced by `bufio.Scanner` with `ScanLines`: bytes
up to the first `'\n'` (empty input gives the empty line), with a final
`'\r'` dropped. -/
def firstLineOf (content : List Char) : List Char :=
  let l := content.takeWhile (fun c => c != '\n')
  if l.getLast? = some '\r' then l.dropLast else l

/-- `unicode.IsSpace` as used by Go `strings.TrimSpace` (space, tab,
newline, vertical tab, form feed, carriage return, NEL, NBSP). -/
def isGoSpace (c : Char) : Bool :=
  c == ' ' || c == '\t' || c == '\n' || c == Char.ofNat 11 ||
    c == Char.ofNat 12 || c == '\r' || c == Char.ofNat 0x85 ||
    c == Char.ofNat 0xA0

/-- Go `strings.TrimSpace`. -/
def trimSpace (s : List Char) : List Char :=
  ((s.dropWhile isGoSpace).reverse.dropWhile isGoSpace).reverse

/-- Does some shebang pattern of `lang` occur as a string-prefix of the
trimmed first line? (The inner loop of router.go lines 118-124; which
pattern matched does not affect the returned descriptor.) -/
def shebangMatches (fl : List Char) (lang : LanguageDescriptor) : Bool :=
  lang.shebangs.any (fun sh => sh.isPrefixOf fl)

/-- `detectLanguage` from router.go lines 99-137, with the file's content
passed in instead of being read from disk: trim the first line; when it
starts with `"#!"` scan descriptors in registry order for a shebang
prefix match; otherwise (or when no shebang matches) compare the
lowercased extension against each descriptor's extension set in registry
order; fail with the "no interpreter found" error naming the file's base
name. -/
def detectLanguage (content filePath : List Char) :
    Except (List Char) LanguageDescriptor :=
  let fl := trimSpace (firstLineOf content)
  let byShebang := if (str "#!").isPrefixOf fl then
      getSupportedLanguages.find? (shebangMatches fl)
    else none
  match byShebang with
  | some lang => .ok lang
  | none =>
      let ext := toLowerList (filepathExt filePath)
      match getSupportedLanguages.find?
          (fun lang => lang.extensions.contains ext) with
      | some lang => .ok lang
      | none =>
          .error (str "Error: No interpreter found for '" ++
            filepathBase filePath ++ str "'")

deriving instance DecidableEq for Except

/-- C5: when the trimmed first line starts with `"#!"` and some
descriptor's shebang prefix matches, detection is independent of the
file path (hence of its extension) and returns the first matching
descriptor; a python shebang with an unrecognized extension and a
shebang-free `.py` file (case-insensitively) both yield the Python
descriptor, an unmatched shebang falls back to the extension scan, and a
file matching neither fails with the "no interpreter found" error naming
the file. -/
theorem detector_priority :
    (∀ content p1 p2 : List Char,
        (str "#!").isPrefixOf (trimSpace (firstLineOf content)) = true →
        (getSupportedLanguages.find?
            (shebangMatches (trimSpace (firstLineOf content)))).isSome = true →
        detectLanguage content p1 = detectLanguage content p2) ∧
    detectLanguage (str "#!/usr/bin/env python3\nprint('x')\n")
        (str "weird.xyz") = .ok pythonLang ∧
    detectLanguage (str "print('x')\n") (str "x.py") = .ok pythonLang ∧
    detectLanguage (str "print('x')\n") (str "X.PY") = .ok pythonLang ∧
    detectLanguage (str "#!/bin/bash\necho hi\n") (str "x.py") =
      .ok pythonLang ∧
    detectLanguage (str "print('x')\n") (str "x.xyz") =
      .error (str "Error: No interpreter found for 'x.xyz'") := by
  refine ⟨fun content p1 p2 hsb hsome => ?_, by decide, by decide, by decide,
    by decide, by decide⟩
  obtain ⟨lang, hlang⟩ := Option.isSome_iff_exists.mp hsome
  unfold detectLanguage
  simp only [hsb, if_true, hlang]

/-- Witness for C5: detection from a python shebang gives the same result
for two unrelated extensions. -/
theorem detector_priority_witness :
    detectLanguage (str "#!/usr/bin/env python3\n") (str "a.weird") =
      detectLanguage (str "#!/usr/bin/env python3\n") (str "b.js") :=
  detector_priority.1 (str "#!/usr/bin/env python3\n") (str "a.weird")
    (str "b.js") (by decide) (by decide)
